import Mathlib

set_option maxRecDepth 100000

/-
Verification development for the Flixsrota job admission, queueing and
worker-dispatch subsystem, shallowly embedded from the Go sources:
  internal/core/ffmpeg.go    (FFmpegExecutor.Execute, buildFFmpegArgs)
  internal/queue (redis.go)  (RedisQueue: Enqueue, Dequeue, Acknowledge,
                              GetJob, UpdateJob, CancelJob)
  internal/core/processor.go (JobProcessor.processJobs)
  internal/core/server.go    (Worker.ProcessJob)
Machine integers are modelled as Int/Nat, times as abstract Nat ticks,
the Redis backend as an explicit in-memory state (sorted set + key/value
records) with documented Redis command semantics.
-/

namespace Flixsrota

/-- Job status; mirrors the `JobStatus` string constants of the queue package. -/
inductive JobStatus where
  | queued
  | processing
  | completed
  | failed
  | cancelled
deriving DecidableEq, Repr

/-- Job record; mirrors the `Job` struct of the queue package.
`Metadata` (a Go string map) is carried as an association list; timestamps
are abstract Nat ticks; `Progress` (a float64 only ever set to 0 or 100)
is carried as a Nat. -/
structure Job where
  id : String
  inputPath : String
  outputPath : String
  ffmpegArgs : String
  priority : Int
  status : JobStatus
  progress : Nat
  errorMsg : String
  metadata : List (String × String)
  createdAt : Nat
  startedAt : Option Nat
  completedAt : Option Nat
  storageAdapter : String
  queueAdapter : String
deriving DecidableEq, Repr

/- ------------------------------------------------------------------
Transcode command builder (buildFFmpegArgs, internal/core/ffmpeg.go).
The Go code ranges over the map `fe.config.Qualities : map[string]bool`;
Go map iteration order is unspecified, so the embedding takes the
enumeration order of that map as an explicit list argument.
------------------------------------------------------------------ -/

/-- The resolution/bitrate table of the `switch quality` statement in
`buildFFmpegArgs`; `none` is the `default: continue` branch. -/
def qualityParams : String → Option (String × String)
  | "360p" => some ("854x480", "1M")
  | "480p" => some ("1280x720", "1.5M")
  | "720p" => some ("1280x720", "3M")
  | "1080p" => some ("1920x1080", "5M")
  | "2K" => some ("2048x1080", "7M")
  | "4K" => some ("3840x2160", "10M")
  | "8K" => some ("7680x4320", "20M")
  | _ => none

/-- One entry of `filterComplexParts`:
`fmt.Sprintf("[%d:v]scale=w=%s:h=%s[v%dout]", 0, resolution, resolution, videoStreamIndex)`. -/
def scaleFilter (res : String) (i : Nat) : String :=
  "[0:v]scale=w=" ++ res ++ ":h=" ++ res ++ "[v" ++ toString i ++ "out]"

/-- One entry of `videoMapParts` (the long Sprintf in `buildFFmpegArgs`). -/
def videoMapArg (i : Nat) (bitrate : String) : String :=
  "-map [v" ++ toString i ++ "out] -c:v:" ++ toString i ++
  " libx264 -x264-params \"nal-hrd=cbr:force-cfr=1\" -b:v:" ++ toString i ++ " " ++ bitrate ++
  " -maxrate:v:" ++ toString i ++ " " ++ bitrate ++
  " -minrate:v:" ++ toString i ++ " " ++ bitrate ++
  " -bufsize:v:" ++ toString i ++ " " ++ bitrate ++
  " -preset slow -g 48 -sc_threshold 0 -keyint_min 48"

/-- The quality loop of `buildFFmpegArgs`: walks the map enumeration,
skips disabled and unknown qualities, and threads `videoStreamIndex`
(the second argument) through the enabled known ones, producing
(`filterComplexParts`, `videoMapParts`). -/
def videoParts : List (String × Bool) → Nat → List String × List String
  | [], _ => ([], [])
  | p :: rest, i =>
    if p.2 then
      match qualityParams p.1 with
      | some rb =>
        let pr := videoParts rest (i + 1)
        (scaleFilter rb.1 i :: pr.1, videoMapArg i rb.2 :: pr.2)
      | none => videoParts rest i
    else videoParts rest i

/-- `audioMapParts` of `buildFFmpegArgs` (always appended, three fixed entries). -/
def audioMapParts : List String :=
  ["-map a:0 -c:a:0 aac -b:a:0 96k -ac 2",
   "-map a:0 -c:a:1 aac -b:a:1 96k -ac 2",
   "-map a:0 -c:a:2 aac -b:a:2 48k -ac 2"]

/-- The HLS-specific options appended by `buildFFmpegArgs`. -/
def hlsParts : List String :=
  ["-f hls",
   "-hls_time 2",
   "-hls_playlist_type vod",
   "-hls_flags independent_segments",
   "-hls_segment_type mpegts",
   "-hls_segment_filename stream_%v/data%02d.ts",
   "-master_pl_name srota.m3u8",
   "-var_stream_map \"v:0,a:0 v:1,a:1 v:2,a:2 v:3,a:0 v:4,a:1 v:5,a:2 v:6,a:0 v:7,a:1\"",
   "stream_%v.m3u8"]

/-- `buildFFmpegArgs` (internal/core/ffmpeg.go): input flag, optional
`-filter_complex` (only when `filterComplexParts` is nonempty, joined with
`"; "` plus a trailing `";"`), video maps, audio maps, HLS options, output
path. `qualities` is the enumeration of the Go map `fe.config.Qualities`
in the (unspecified) iteration order of the relevant call. -/
def buildFFmpegArgs (qualities : List (String × Bool)) (job : Job) : List String :=
  let vp := videoParts qualities 0
  ["-i", job.inputPath]
    ++ (if vp.1.isEmpty then [] else
        ["-filter_complex", String.intercalate "; " vp.1 ++ ";"])
    ++ vp.2 ++ audioMapParts ++ hlsParts ++ [job.outputPath]

/-- The enabled, known (resolution, bitrate) pairs of a quality enumeration,
in enumeration order. Used to characterise index assignment. -/
def enabledParams (l : List (String × Bool)) : List (String × String) :=
  l.filterMap (fun p => if p.2 then qualityParams p.1 else none)

/-- Scaling branches for a parameter list, labelling streams consecutively
from `i`. -/
def idxFilters : List (String × String) → Nat → List String
  | [], _ => []
  | rb :: rest, i => scaleFilter rb.1 i :: idxFilters rest (i + 1)

/-- Video-mapping arguments for a parameter list, indexing streams
consecutively from `i`. -/
def idxMaps : List (String × String) → Nat → List String
  | [], _ => []
  | rb :: rest, i => videoMapArg i rb.2 :: idxMaps rest (i + 1)

/- ------------------------------------------------------------------
Process executor (FFmpegExecutor.Execute, internal/core/ffmpeg.go).
------------------------------------------------------------------ -/

/-- The error message built by `Execute` on a failed run:
`fmt.Errorf("FFmpeg execution failed: %w (stderr: %s)", err, stderr.String())`.
`errText` is the text of the `cmd.Run()` error, `stderrText` the full
captured standard-error buffer. -/
def executeErrMsg (errText stderrText : String) : String :=
  "FFmpeg execution failed: " ++ errText ++ " (stderr: " ++ stderrText ++ ")"

/-- `Execute` outcome classification: `runRes = some errText` models a
non-zero exit or spawn failure of `cmd.Run()` with error text `errText`,
`none` models a zero exit; `stderrText` is the captured stderr. -/
def execute (runRes : Option String) (stderrText : String) : Except String Unit :=
  match runRes with
  | some errText => Except.error (executeErrMsg errText stderrText)
  | none => Except.ok ()

/-- Proof gadget: a string of `n` copies of `a`. -/
def manyA : Nat → String
  | 0 => ""
  | n + 1 => manyA n ++ "a"

/- ------------------------------------------------------------------
Priority job store (RedisQueue, internal/queue/redis.go), backed by one
Redis sorted set "flixsrota:queue" (member = job id, score = priority)
and one record key per job ("flixsrota:job:<id>").  The backend itself
is modelled reliable; record TTL eviction is not modelled.
------------------------------------------------------------------ -/

/-- Lexicographic comparison of character lists by code point, the order
Redis uses (memcmp) on sorted-set members with equal scores. -/
def chLt : List Char → List Char → Bool
  | [], [] => false
  | [], _ :: _ => true
  | _ :: _, [] => false
  | a :: as, b :: bs =>
    if a.toNat < b.toNat then true
    else if b.toNat < a.toNat then false
    else chLt as bs

/-- Lexicographic order on sorted-set members. -/
def strLt (a b : String) : Bool :=
  chLt a.data b.data

/-- Strict ordering of sorted-set entries `(member, score)`: by score,
ties by lexicographic member order (Redis sorted-set ordering). -/
def keyLtB (p q : String × Int) : Bool :=
  if p.2 < q.2 then true
  else if q.2 < p.2 then false
  else strLt p.1 q.1

/-- Redis ZADD: update the score if the member exists, else insert. -/
def zadd : List (String × Int) → String → Int → List (String × Int)
  | [], id, s => [(id, s)]
  | p :: rest, id, s => if p.1 = id then (id, s) :: rest else p :: zadd rest id s

/-- Redis ZREM: drop every entry of the member. -/
def zrem (l : List (String × Int)) (id : String) : List (String × Int) :=
  l.filter (fun p => p.1 != id)

/-- The entry Redis ZPOPMAX pops: the greatest under `keyLt`
(highest score, ties resolved to the lexicographically greatest member). -/
def zMax : List (String × Int) → Option (String × Int)
  | [] => none
  | p :: rest =>
    match zMax rest with
    | none => some p
    | some q => if keyLtB p q then some q else some p

/-- Association-list lookup for the per-id record keys. -/
def lookupJob : List (String × Job) → String → Option Job
  | [], _ => none
  | p :: rest, id => if p.1 = id then some p.2 else lookupJob rest id

/-- Redis SET on a record key. -/
def setJob : List (String × Job) → String → Job → List (String × Job)
  | [], id, j => [(id, j)]
  | p :: rest, id, j => if p.1 = id then (id, j) :: rest else p :: setJob rest id j

/-- Redis DEL on a record key. -/
def delJob (m : List (String × Job)) (id : String) : List (String × Job) :=
  m.filter (fun p => p.1 != id)

/-- The queue-visible Redis state: the pending sorted set and the job records. -/
structure RedisState where
  pending : List (String × Int)
  jobs : List (String × Job)
deriving DecidableEq, Repr

/-- The empty Redis state. -/
def initState : RedisState := { pending := [], jobs := [] }

/-- `RedisQueue.Enqueue`: assign `freshId` when the id is empty, stamp
`created_at`, force `status = Queued` and `progress = 0`, ZADD the id
with score `priority`, and SET the record. -/
def enqueue (st : RedisState) (job : Job) (now : Nat) (freshId : String) : RedisState :=
  let id := if job.id = "" then freshId else job.id
  let j := { job with id := id, createdAt := now,
                      status := JobStatus.queued, progress := 0 }
  { pending := zadd st.pending id job.priority,
    jobs := setJob st.jobs id j }

/-- `RedisQueue.Dequeue`: ZPOPMAX; empty set yields `(ok none)`; then GET
the record (an error when it is missing, mirroring the wrapped `redis.Nil`),
mark it `Processing` with `started_at = now`, and persist via `UpdateJob`. -/
def dequeue (st : RedisState) (now : Nat) : Except String (Option Job) × RedisState :=
  match zMax st.pending with
  | none => (Except.ok none, st)
  | some p =>
    let st1 : RedisState := { st with pending := zrem st.pending p.1 }
    match lookupJob st1.jobs p.1 with
    | none => (Except.error "failed to get job data", st1)
    | some job =>
      let j := { job with status := JobStatus.processing, startedAt := some now }
      (Except.ok (some j), { st1 with jobs := setJob st1.jobs j.id j })

/-- `RedisQueue.Acknowledge`: DEL the record and ZREM the pending entry;
never an error (the pipeline only fails on backend faults). -/
def acknowledge (st : RedisState) (id : String) : Except String Unit × RedisState :=
  (Except.ok (), { pending := zrem st.pending id, jobs := delJob st.jobs id })

/-- `RedisQueue.GetJob`: GET the record; missing key is `none`, not an error. -/
def getJob (st : RedisState) (id : String) : Option Job :=
  lookupJob st.jobs id

/-- `RedisQueue.UpdateJob`: SET the record under `job.ID`. -/
def updateJob (st : RedisState) (j : Job) : RedisState :=
  { st with jobs := setJob st.jobs j.id j }

/-- `RedisQueue.CancelJob`: GET; error when missing; otherwise set
`status = Cancelled`, `completed_at = now` and persist via `UpdateJob`.
Note the source neither checks the current status nor ZREMs the pending entry. -/
def cancelJob (st : RedisState) (id : String) (now : Nat) : Except String Unit × RedisState :=
  match getJob st id with
  | none => (Except.error ("job not found: " ++ id), st)
  | some j =>
    let j2 := { j with status := JobStatus.cancelled, completedAt := some now }
    (Except.ok (), updateJob st j2)

/-- The stored status of a record, when present. -/
def statusOf (st : RedisState) (id : String) : Option JobStatus :=
  (lookupJob st.jobs id).map Job.status

/-- The id of the job a Dequeue call returns, when it returns one. -/
def dequeuedId (st : RedisState) (now : Nat) : Option String :=
  match (dequeue st now).1 with
  | Except.ok (some j) => some j.id
  | _ => none

/-- Forward progress measure of the status lifecycle. -/
def rank : JobStatus → Nat
  | JobStatus.queued => 0
  | JobStatus.processing => 1
  | _ => 2

/- ------------------------------------------------------------------
Worker (Worker.ProcessJob, internal/core/server.go) and the dispatch arm
of JobProcessor.processJobs (internal/core/processor.go), as the sequence
of store/executor calls they make.
------------------------------------------------------------------ -/

/-- One observable call made by the worker path. -/
inductive WorkerEvent where
  | update (j : Job)
  | execRun (j : Job)
  | ackJob (id : String)
  | requeue (j : Job)
  | giveBack
deriving DecidableEq, Repr

/-- `Worker.ProcessJob` as its sequence of calls. `updOk` is the outcome of
the initial `UpdateJob` persisting the `Processing` transition; `execRes`
is `some (errText, stderrText)` on executor failure, `none` on success;
`termOk` is the outcome of the `UpdateJob` persisting `Completed`. -/
def processJob (j : Job) (now : Nat) (updOk : Bool)
    (execRes : Option (String × String)) (termOk : Bool) (nowT : Nat) : List WorkerEvent :=
  let jp := { j with status := JobStatus.processing, startedAt := some now, progress := 0 }
  if updOk then
    match execRes with
    | some es =>
      let jf := { jp with status := JobStatus.failed,
                          errorMsg := executeErrMsg es.1 es.2, completedAt := some nowT }
      [WorkerEvent.update jp, WorkerEvent.execRun jp, WorkerEvent.update jf]
    | none =>
      let jc := { jp with status := JobStatus.completed, progress := 100,
                          completedAt := some nowT }
      [WorkerEvent.update jp, WorkerEvent.execRun jp, WorkerEvent.update jc]
        ++ (if termOk then [WorkerEvent.ackJob jp.id] else [])
  else
    [WorkerEvent.update jp]

/-- The dispatch arm of `processJobs` once a worker is acquired:
`go func(w, j) { w.ProcessJob(j); jp.workerPool <- w }` — the worker is
handed back to the pool after `ProcessJob` returns, unconditionally. -/
def runWorker (j : Job) (now : Nat) (updOk : Bool)
    (execRes : Option (String × String)) (termOk : Bool) (nowT : Nat) : List WorkerEvent :=
  processJob j now updOk execRes termOk nowT ++ [WorkerEvent.giveBack]

/-- The full worker round trip on the store: `Dequeue`, then (when a job
was returned) `ProcessJob`'s store effects: `UpdateJob(Processing)`, the
executor, `UpdateJob(terminal)`, and on success `Acknowledge`.  The store
writes always succeed in this reliable-backend model. -/
def workerRun (st : RedisState) (ok : Bool) (now nowP nowT : Nat) : RedisState :=
  match dequeue st now with
  | (Except.ok (some j), st1) =>
    let jp := { j with status := JobStatus.processing, startedAt := some nowP, progress := 0 }
    let st2 := updateJob st1 jp
    if ok then
      let jc := { jp with status := JobStatus.completed, progress := 100,
                          completedAt := some nowT }
      (acknowledge (updateJob st2 jc) jc.id).2
    else
      let jf := { jp with status := JobStatus.failed,
                          errorMsg := "FFmpeg execution failed", completedAt := some nowT }
      updateJob st2 jf
  | (_, st1) => st1

/-- The store and worker operations of the system, as observed by the
Redis state. -/
inductive SysOp where
  | enq (job : Job) (now : Nat) (freshId : String)
  | deq (now : Nat)
  | ackOp (id : String)
  | cancelOp (id : String) (now : Nat)
  | workerOp (ok : Bool) (now nowP nowT : Nat)

/-- One step of the system. -/
def applyOp (st : RedisState) : SysOp → RedisState
  | SysOp.enq job now fid => enqueue st job now fid
  | SysOp.deq now => (dequeue st now).2
  | SysOp.ackOp id => (acknowledge st id).2
  | SysOp.cancelOp id now => (cancelJob st id now).2
  | SysOp.workerOp ok now nowP nowT => workerRun st ok now nowP nowT

/-- The operations of the normal (cancellation-free) lifecycle: Enqueue
only of ids not currently stored (fresh admission, no re-admission),
Dequeue, Acknowledge and the worker round trip. -/
def okStepB (st : RedisState) : SysOp → Bool
  | SysOp.enq job _ fid =>
    (lookupJob st.jobs (if job.id = "" then fid else job.id)).isNone
  | SysOp.cancelOp _ _ => false
  | _ => true

/-- Store well-formedness: every pending entry points to a stored record
that is `Queued` and carries its own key as id. -/
def invB (st : RedisState) : Bool :=
  st.pending.all (fun p =>
    match lookupJob st.jobs p.1 with
    | some j => j.status == JobStatus.queued && j.id == p.1
    | none => false)

/-- Pending entries carry the stored record's priority as score and its
id as member (true of every state the store's own operations produce). -/
def scoresMatchB (st : RedisState) : Bool :=
  st.pending.all (fun p =>
    match lookupJob st.jobs p.1 with
    | some j => j.priority == p.2 && j.id == p.1
    | none => false)

/- ------------------------------------------------------------------
Concrete fixtures for counterexamples and witnesses.
------------------------------------------------------------------ -/

/-- A concrete job used in counterexamples and witnesses. -/
def jobA : Job :=
  { id := "a", inputPath := "in.mp4", outputPath := "out",
    ffmpegArgs := "", priority := 5, status := JobStatus.queued, progress := 0,
    errorMsg := "", metadata := [], createdAt := 0, startedAt := none,
    completedAt := none, storageAdapter := "", queueAdapter := "" }

/-- A second job, same priority, lexicographically later id, enqueued later. -/
def jobB : Job := { jobA with id := "b" }

/-- `jobA` with caller-supplied override tokens. -/
def jobY : Job := { jobA with ffmpegArgs := "-y" }

/-- A lower-priority job. -/
def jobC : Job := { jobA with id := "c", priority := 3 }

/-- State after enqueuing `jobA` at tick 0. -/
def cexSt1 : RedisState := enqueue initState jobA 0 "u1"

/-- State after additionally cancelling job "a" at tick 1. -/
def cexSt2 : RedisState := (cancelJob cexSt1 "a" 1).2

/-- State after enqueuing `jobA` then `jobB` (equal priority). -/
def cexStAB : RedisState := enqueue cexSt1 jobB 1 "u2"

/-- State after enqueuing `jobA` then `jobC` (lower priority). -/
def cexStAC : RedisState := enqueue cexSt1 jobC 1 "u3"

/- ==================================================================
Theorems.  First general lemmas about the embedded operations, then one
theorem per claim (with a witness where the theorem has hypotheses).
================================================================== -/

theorem strLen_append (a b : String) : (a ++ b).length = a.length + b.length := by
  cases a with
  | mk da =>
    cases b with
    | mk db => simp [String.length, String.append]

theorem manyA_length (n : Nat) : (manyA n).length = n := by
  induction n with
  | zero => rfl
  | succ m ih =>
    have h1 : ("a" : String).length = 1 := by decide
    simp [manyA, strLen_append, ih, h1]

theorem executeErrMsg_length (e s : String) :
    (executeErrMsg e s).length = 36 + e.length + s.length := by
  have h1 : ("FFmpeg execution failed: " : String).length = 25 := by decide
  have h2 : (" (stderr: " : String).length = 10 := by decide
  have h3 : (")" : String).length = 1 := by decide
  simp [executeErrMsg, strLen_append, h1, h2, h3]
  omega

/-- The quality loop assigns output-stream indices consecutively, in the
order tiers are processed, to exactly the enabled known tiers. -/
theorem videoParts_eq (l : List (String × Bool)) :
    ∀ i, videoParts l i = (idxFilters (enabledParams l) i, idxMaps (enabledParams l) i) := by
  induction l with
  | nil => intro i; rfl
  | cons p rest ih =>
    intro i
    by_cases hp : p.2
    · cases hq : qualityParams p.1 with
      | none =>
        simp [videoParts, hp, hq, enabledParams, List.filterMap_cons]
        simpa [enabledParams] using ih i
      | some rb =>
        simp [videoParts, hp, hq, enabledParams, List.filterMap_cons, idxFilters, idxMaps]
        have h := ih (i + 1)
        simp [enabledParams] at h
        exact ⟨congrArg Prod.fst h, congrArg Prod.snd h⟩
    · simp [videoParts, hp, enabledParams, List.filterMap_cons]
      simpa [enabledParams] using ih i

theorem chLt_irrefl : ∀ l : List Char, chLt l l = false
  | [] => rfl
  | a :: as => by simp [chLt, chLt_irrefl as]

theorem chLt_asymm : ∀ a b : List Char, chLt a b = true → chLt b a = false
  | [], [], h => by simp [chLt] at h
  | [], _ :: _, _ => by simp [chLt]
  | _ :: _, [], h => by simp [chLt] at h
  | a :: as, b :: bs, h => by
    simp only [chLt] at h ⊢
    by_cases h1 : a.toNat < b.toNat
    · have h2 : ¬ b.toNat < a.toNat := by omega
      simp [h1, h2]
    · by_cases h2 : b.toNat < a.toNat
      · simp [h1, h2] at h
      · simp [h1, h2] at h ⊢
        exact chLt_asymm as bs h

theorem chLt_nlt_trans : ∀ a b c : List Char,
    chLt a b = false → chLt b c = false → chLt a c = false
  | [], b, c, h1, h2 => by
    cases b with
    | nil =>
      cases c with
      | nil => rfl
      | cons x xs => simp [chLt] at h2
    | cons y ys => simp [chLt] at h1
  | _ :: _, [], c, _, h2 => by
    cases c with
    | nil => rfl
    | cons x xs => simp [chLt] at h2
  | a :: as, b :: bs, c, h1, h2 => by
    cases c with
    | nil => rfl
    | cons x xs =>
      simp only [chLt] at h1 h2 ⊢
      by_cases hab : a.toNat < b.toNat
      · simp [hab] at h1
      · by_cases hbx : b.toNat < x.toNat
        · simp [hbx] at h2
        · by_cases hax : a.toNat < x.toNat
          · omega
          · by_cases hxa : x.toNat < a.toNat
            · simp [hax, hxa]
            · have hba : ¬ b.toNat < a.toNat := by omega
              have hxb : ¬ x.toNat < b.toNat := by omega
              simp [hab, hba] at h1
              simp [hbx, hxb] at h2
              simp [hax, hxa]
              exact chLt_nlt_trans as bs xs h1 h2

theorem chLt_conn : ∀ a b : List Char,
    chLt a b = false → chLt b a = false → a = b
  | [], [], _, _ => rfl
  | [], _ :: _, h1, _ => by simp [chLt] at h1
  | _ :: _, [], _, h2 => by simp [chLt] at h2
  | a :: as, b :: bs, h1, h2 => by
    simp only [chLt] at h1 h2
    by_cases hab : a.toNat < b.toNat
    · simp [hab] at h1
    · by_cases hba : b.toNat < a.toNat
      · simp [hba, hab] at h2
      · have hv : a = b := by
          have hn : a.toNat = b.toNat := by omega
          exact Char.eq_of_val_eq (UInt32.toNat.inj hn)
        simp [hab, hba] at h1 h2
        rw [hv, chLt_conn as bs h1 h2]

theorem strLt_irrefl (a : String) : strLt a a = false :=
  chLt_irrefl a.data

theorem strLt_asymm (a b : String) (h : strLt a b = true) : strLt b a = false :=
  chLt_asymm a.data b.data h

theorem strLt_nlt_trans (a b c : String) (h1 : strLt a b = false)
    (h2 : strLt b c = false) : strLt a c = false :=
  chLt_nlt_trans a.data b.data c.data h1 h2

theorem strLt_conn (a b : String) (h1 : strLt a b = false)
    (h2 : strLt b a = false) : a = b := by
  cases a with
  | mk da =>
    cases b with
    | mk db => exact congrArg String.mk (chLt_conn da db h1 h2)

theorem keyLtB_irrefl (p : String × Int) : keyLtB p p = false := by
  simp [keyLtB, strLt_irrefl]

theorem keyLtB_asymm (p q : String × Int) (h : keyLtB p q = true) :
    keyLtB q p = false := by
  simp only [keyLtB] at h ⊢
  by_cases h1 : p.2 < q.2
  · have h2 : ¬ q.2 < p.2 := by omega
    simp [h1, h2]
  · by_cases h2 : q.2 < p.2
    · simp [h1, h2] at h
    · simp [h1, h2] at h ⊢
      exact strLt_asymm _ _ h

theorem keyLtB_nlt_trans (p q r : String × Int) (h1 : keyLtB p q = false)
    (h2 : keyLtB q r = false) : keyLtB p r = false := by
  simp only [keyLtB] at h1 h2 ⊢
  by_cases hpq : p.2 < q.2
  · simp [hpq] at h1
  · by_cases hqr : q.2 < r.2
    · simp [hqr] at h2
    · by_cases hpr : p.2 < r.2
      · omega
      · by_cases hrp : r.2 < p.2
        · simp [hpr, hrp]
        · have hqp : ¬ q.2 < p.2 := by omega
          have hrq : ¬ r.2 < q.2 := by omega
          simp [hpq, hqp] at h1
          simp [hqr, hrq] at h2
          simp [hpr, hrp]
          exact strLt_nlt_trans _ _ _ h1 h2

/-- A not-greater entry of different member is strictly below: scores
strictly below, or equal scores and member lexicographically below. -/
theorem keyLtB_false_ne (p q : String × Int) (h : keyLtB p q = false)
    (hne : q.1 ≠ p.1) : q.2 < p.2 ∨ (q.2 = p.2 ∧ strLt q.1 p.1 = true) := by
  simp only [keyLtB] at h
  by_cases h1 : p.2 < q.2
  · simp [h1] at h
  · by_cases h2 : q.2 < p.2
    · exact Or.inl h2
    · have he : q.2 = p.2 := by omega
      simp [h1, h2] at h
      refine Or.inr ⟨he, ?_⟩
      cases hs : strLt q.1 p.1 with
      | true => rfl
      | false => exact absurd (strLt_conn _ _ h hs) (Ne.symm hne)

theorem zMax_eq_none : ∀ l : List (String × Int), zMax l = none → l = []
  | [], _ => rfl
  | p :: rest, h => by
    simp only [zMax] at h
    cases hm : zMax rest with
    | none => rw [hm] at h; simp at h
    | some q =>
      rw [hm] at h
      by_cases hk : keyLtB p q = true <;> simp [hk] at h

/-- ZPOPMAX pops a present entry that no other entry exceeds. -/
theorem zMax_spec : ∀ l : List (String × Int), ∀ p, zMax l = some p →
    p ∈ l ∧ ∀ q ∈ l, keyLtB p q = false
  | [], p, h => by simp [zMax] at h
  | a :: rest, p, h => by
    simp only [zMax] at h
    cases hm : zMax rest with
    | none =>
      have hrest := zMax_eq_none rest hm
      rw [hm] at h
      simp at h
      subst hrest
      constructor
      · simp [h]
      · intro q hq
        rw [List.mem_singleton] at hq
        subst hq
        rw [h]
        exact keyLtB_irrefl p
    | some m =>
      rw [hm] at h
      have ih := zMax_spec rest m hm
      by_cases hk : keyLtB a m = true
      · simp [hk] at h
        constructor
        · exact List.mem_cons_of_mem a (h ▸ ih.1)
        · intro q hq
          rcases List.mem_cons.1 hq with hq | hq
          · rw [← h, hq]
            exact keyLtB_asymm _ _ hk
          · rw [← h]
            exact ih.2 q hq
      · simp [hk] at h
        constructor
        · rw [← h]
          exact List.mem_cons_self a rest
        · intro q hq
          rcases List.mem_cons.1 hq with hq | hq
          · rw [← h, hq]
            exact keyLtB_irrefl a
          · rw [← h]
            exact keyLtB_nlt_trans a m q (by simpa using hk) (ih.2 q hq)

theorem mem_zrem (l : List (String × Int)) (id : String) (p : String × Int) :
    p ∈ zrem l id ↔ p ∈ l ∧ p.1 ≠ id := by
  simp [zrem, List.mem_filter, bne_iff_ne]

theorem mem_zadd : ∀ (l : List (String × Int)) (id : String) (s : Int)
    (p : String × Int), p ∈ zadd l id s → p = (id, s) ∨ p ∈ l
  | [], id, s, p, h => Or.inl (by simpa [zadd] using h)
  | a :: rest, id, s, p, h => by
    simp only [zadd] at h
    by_cases ha : a.1 = id
    · simp [ha] at h
      rcases h with h | h
      · exact Or.inl (by simp [h])
      · exact Or.inr (List.mem_cons_of_mem a h)
    · simp [ha] at h
      rcases h with h | h
      · exact Or.inr (by simp [h])
      · rcases mem_zadd rest id s p h with h2 | h2
        · exact Or.inl h2
        · exact Or.inr (List.mem_cons_of_mem a h2)

theorem lookup_set_self : ∀ (m : List (String × Job)) (k : String) (j : Job),
    lookupJob (setJob m k j) k = some j
  | [], k, j => by simp [setJob, lookupJob]
  | p :: rest, k, j => by
    by_cases hp : p.1 = k
    · simp [setJob, hp, lookupJob]
    · simp [setJob, hp, lookupJob, lookup_set_self rest k j]

theorem lookup_set_ne (m : List (String × Job)) (k k2 : String) (j : Job)
    (h : k2 ≠ k) : lookupJob (setJob m k j) k2 = lookupJob m k2 := by
  induction m with
  | nil => simp [setJob, lookupJob, Ne.symm h]
  | cons p rest ih =>
    by_cases hp : p.1 = k
    · simp [setJob, hp, lookupJob, Ne.symm h]
    · simp [setJob, hp, lookupJob, ih]

theorem lookup_del_self (m : List (String × Job)) (k : String) :
    lookupJob (delJob m k) k = none := by
  induction m with
  | nil => rfl
  | cons p rest ih =>
    by_cases hp : p.1 = k
    · simpa [delJob, hp] using ih
    · simpa [delJob, List.filter_cons, hp, lookupJob] using ih

theorem lookup_del_ne (m : List (String × Job)) (k k2 : String) (h : k2 ≠ k) :
    lookupJob (delJob m k) k2 = lookupJob m k2 := by
  induction m with
  | nil => rfl
  | cons p rest ih =>
    by_cases hp : p.1 = k
    · have hpk2 : p.1 ≠ k2 := by rw [hp]; exact Ne.symm h
      rw [show lookupJob (p :: rest) k2 = lookupJob rest k2 by simp [lookupJob, hpk2]]
      rw [show delJob (p :: rest) k = delJob rest k by simp [delJob, List.filter_cons, hp]]
      exact ih
    · rw [show delJob (p :: rest) k = p :: delJob rest k by
        simp [delJob, List.filter_cons, hp]]
      by_cases hp2 : p.1 = k2
      · simp [lookupJob, hp2]
      · simp only [lookupJob, hp2, if_false]
        exact ih

/-- Bridge from the boolean store invariant to its propositional content. -/
theorem invB_iff (st : RedisState) : invB st = true ↔
    ∀ p ∈ st.pending, ∃ j, lookupJob st.jobs p.1 = some j ∧
      j.status = JobStatus.queued ∧ j.id = p.1 := by
  simp only [invB, List.all_eq_true]
  constructor
  · intro h p hp
    have hb := h p hp
    cases hl : lookupJob st.jobs p.1 with
    | none => rw [hl] at hb; simp at hb
    | some j =>
      rw [hl] at hb
      simp at hb
      exact ⟨j, rfl, hb.1, hb.2⟩
  · intro h p hp
    obtain ⟨j, hj, hs, hi⟩ := h p hp
    rw [hj]
    simp [hs, hi]

/-- Dequeue on a nonempty pending set whose popped record exists. -/
theorem dequeue_pop (st : RedisState) (now : Nat) (p : String × Int) (jq : Job)
    (hz : zMax st.pending = some p) (hl : lookupJob st.jobs p.1 = some jq) :
    dequeue st now =
      (Except.ok (some { jq with status := JobStatus.processing, startedAt := some now }),
       { pending := zrem st.pending p.1,
         jobs := setJob st.jobs jq.id
           { jq with status := JobStatus.processing, startedAt := some now } }) := by
  simp [dequeue, hz, hl]

/--
Claim C1 counterexample: `fe.config.Qualities` is a Go map and
`buildFFmpegArgs` ranges over it, so the enabled-tier set `{360p, 720p}`
can be enumerated in either order across calls; the two enumerations of
the same set produce different argument sequences, so the Builder is not
deterministic and the branches are not always in tier-ascending order.
-/
theorem claim1_counterexample :
    ([("360p", true), ("720p", true)] : List (String × Bool)).Perm
      [("720p", true), ("360p", true)] ∧
    buildFFmpegArgs [("360p", true), ("720p", true)] jobA ≠
      buildFFmpegArgs [("720p", true), ("360p", true)] jobA := by
  constructor
  · decide
  · decide

/--
Claim C1 amended: for a fixed enumeration order of the qualities map,
`buildFFmpegArgs` is a pure function of that order and the job, and the
output-stream indices 0, 1, 2, … are assigned consecutively in the order
tiers are processed (to exactly the enabled known tiers); the emission
order is the map's iteration order, not tier-ascending order.
-/
theorem claim1_amended (l : List (String × Bool)) (j : Job) :
    buildFFmpegArgs l j =
      ["-i", j.inputPath]
        ++ (if enabledParams l = [] then [] else
            ["-filter_complex", String.intercalate "; " (idxFilters (enabledParams l) 0) ++ ";"])
        ++ idxMaps (enabledParams l) 0 ++ audioMapParts ++ hlsParts ++ [j.outputPath] := by
  simp only [buildFFmpegArgs, videoParts_eq l 0]
  cases hE : enabledParams l with
  | nil => simp [idxFilters, idxMaps]
  | cons e es => simp [idxFilters, idxMaps]

/--
Claim C6 counterexample: the caller-supplied override tokens
(`Job.FFmpegArgs`) never appear in the synthesized argument list —
`buildFFmpegArgs` does not read the field at all, so the tokens are not
appended after the tier-derived arguments.
-/
theorem claim6_counterexample :
    jobY.ffmpegArgs = "-y" ∧
    "-y" ∉ buildFFmpegArgs [("360p", true)] jobY ∧
    buildFFmpegArgs [("360p", true)] jobY = buildFFmpegArgs [("360p", true)] jobA := by
  refine ⟨by decide, by decide, by decide⟩

/--
Claim C6 amended: `buildFFmpegArgs` ignores `Job.FFmpegArgs` entirely:
the synthesized argument list is independent of the field, and the
override tokens are never layered into the command.
-/
theorem claim6_amended (l : List (String × Bool)) (j : Job) (s : String) :
    buildFFmpegArgs l { j with ffmpegArgs := s } = buildFFmpegArgs l j := rfl

/--
Claim C8 counterexample: on a failed run `Execute` does return a failure
carrying the captured stderr, but the captured text is not truncated: no
bound holds for the error payload, which grows without bound with the
tool's stderr output.
-/
theorem claim8_counterexample :
    execute (some "exit status 1") "boom" =
      Except.error (executeErrMsg "exit status 1" "boom") ∧
    ¬ ∃ B : Nat, ∀ s : String, (executeErrMsg "exit status 1" s).length ≤ B := by
  constructor
  · rfl
  · rintro ⟨B, hB⟩
    have h := hB (manyA (B + 1))
    rw [executeErrMsg_length, manyA_length] at h
    omega

/--
Claim C8 amended: when the spawned process exits non-zero or fails to
spawn, `Execute` returns a failure carrying the captured standard-error
text verbatim and untruncated: the payload length is exactly
36 + |err| + |stderr|, hence exceeds any bound for long enough stderr.
-/
theorem claim8_amended :
    (∀ e s, execute (some e) s = Except.error (executeErrMsg e s)) ∧
    (∀ e s, (executeErrMsg e s).length = 36 + e.length + s.length) ∧
    (∀ (B : Nat) (e : String), B < (executeErrMsg e (manyA (B + 1))).length) := by
  refine ⟨fun e s => rfl, executeErrMsg_length, ?_⟩
  intro B e
  rw [executeErrMsg_length, manyA_length]
  omega

/--
Claim C9: with no enabled tier, the builder still produces an argument
list, with no filter-graph flag and no video-mapping arguments (input,
audio mappings, HLS options and output only); and an enabled tier with an
unknown name is skipped silently — it contributes no scaling branch and
no video mapping, and the argument list is the one built without it.
-/
theorem claim9 :
    (∀ (l : List (String × Bool)) (j : Job), (∀ p ∈ l, p.2 = false) →
      buildFFmpegArgs l j =
        ["-i", j.inputPath] ++ audioMapParts ++ hlsParts ++ [j.outputPath]) ∧
    (∀ (l1 l2 : List (String × Bool)) (q : String) (j : Job),
      qualityParams q = none →
      buildFFmpegArgs (l1 ++ (q, true) :: l2) j = buildFFmpegArgs (l1 ++ l2) j) := by
  constructor
  · intro l j hall
    have hE : enabledParams l = [] := by
      simp only [enabledParams, List.filterMap_eq_nil_iff]
      intro p hp
      simp [hall p hp]
    simp [buildFFmpegArgs, videoParts_eq l 0, hE, idxFilters, idxMaps]
  · intro l1 l2 q j hq
    have hE : enabledParams (l1 ++ (q, true) :: l2) = enabledParams (l1 ++ l2) := by
      simp [enabledParams, List.filterMap_append, List.filterMap_cons, hq]
    simp only [buildFFmpegArgs, videoParts_eq _ 0, hE]

/-- Witness for C9 at concrete inputs. -/
theorem claim9_witness :
    buildFFmpegArgs [("360p", false)] jobA =
      ["-i", jobA.inputPath] ++ audioMapParts ++ hlsParts ++ [jobA.outputPath] ∧
    buildFFmpegArgs ([] ++ ("999p", true) :: [("720p", true)]) jobA =
      buildFFmpegArgs ([] ++ [("720p", true)]) jobA :=
  ⟨claim9.1 [("360p", false)] jobA (by decide),
   claim9.2 [] [("720p", true)] "999p" jobA (by decide)⟩

theorem zrem_idem (l : List (String × Int)) (id : String) :
    zrem (zrem l id) id = zrem l id := by
  induction l with
  | nil => rfl
  | cons p rest ih =>
    by_cases hp : p.1 = id
    · simp only [zrem, List.filter_cons] at ih ⊢
      simp [hp, ih]
    · simp only [zrem, List.filter_cons] at ih ⊢
      simp [hp, ih]

theorem delJob_idem (m : List (String × Job)) (id : String) :
    delJob (delJob m id) id = delJob m id := by
  induction m with
  | nil => rfl
  | cons p rest ih =>
    by_cases hp : p.1 = id
    · simp only [delJob, List.filter_cons] at ih ⊢
      simp [hp, ih]
    · simp only [delJob, List.filter_cons] at ih ⊢
      simp [hp, ih]

/-- Bridge from the boolean score/id consistency check to its content. -/
theorem scoresMatchB_iff (st : RedisState) : scoresMatchB st = true ↔
    ∀ p ∈ st.pending, ∃ j, lookupJob st.jobs p.1 = some j ∧
      j.priority = p.2 ∧ j.id = p.1 := by
  simp only [scoresMatchB, List.all_eq_true]
  constructor
  · intro h p hp
    have hb := h p hp
    cases hl : lookupJob st.jobs p.1 with
    | none => rw [hl] at hb; simp at hb
    | some j =>
      rw [hl] at hb
      simp at hb
      exact ⟨j, rfl, hb.1, hb.2⟩
  · intro h p hp
    obtain ⟨j, hj, hs, hi⟩ := h p hp
    rw [hj]
    simp [hs, hi]

/--
Claim C2 counterexample: jobs "a" and "b" of equal priority enqueued in
that order; the first Dequeue returns "b" — equal-priority jobs are not
returned in enqueue order (oldest first) but by descending member order.
-/
theorem claim2_counterexample :
    jobA.priority = jobB.priority ∧
    dequeuedId cexStAB 2 = some "b" ∧
    dequeuedId (dequeue cexStAB 2).2 3 = some "a" := by
  refine ⟨by decide, by decide, by decide⟩

/--
Claim C2 amended: consecutive Dequeues return jobs in non-increasing
priority order, with equal-priority ties broken by descending
lexicographic order of job id (the Redis sorted-set member order), not by
enqueue order.
-/
theorem claim2_amended (st : RedisState) (now1 now2 : Nat)
    (j1 j2 : Job) (st1 st2 : RedisState)
    (hw : scoresMatchB st = true)
    (h1 : dequeue st now1 = (Except.ok (some j1), st1))
    (h2 : dequeue st1 now2 = (Except.ok (some j2), st2)) :
    j2.priority < j1.priority ∨
      (j2.priority = j1.priority ∧ strLt j2.id j1.id = true) := by
  cases hz1 : zMax st.pending with
  | none =>
    rw [show dequeue st now1 = (Except.ok none, st) by simp [dequeue, hz1]] at h1
    simp at h1
  | some p1 =>
    cases hl1 : lookupJob st.jobs p1.1 with
    | none =>
      rw [show dequeue st now1 =
          (Except.error "failed to get job data",
           { st with pending := zrem st.pending p1.1 }) by simp [dequeue, hz1, hl1]] at h1
      simp at h1
    | some jq1 =>
      rw [dequeue_pop st now1 p1 jq1 hz1 hl1] at h1
      simp only [Prod.mk.injEq, Except.ok.injEq, Option.some.injEq] at h1
      obtain ⟨hj1, hst1⟩ := h1
      obtain ⟨jm1, hjm1, hp1pr, hp1id⟩ :=
        (scoresMatchB_iff st).1 hw p1 (zMax_spec st.pending p1 hz1).1
      rw [hl1] at hjm1
      injection hjm1 with hjm1
      subst hjm1
      cases hz2 : zMax st1.pending with
      | none =>
        rw [show dequeue st1 now2 = (Except.ok none, st1) by simp [dequeue, hz2]] at h2
        simp at h2
      | some p2 =>
        have hp2mem : p2 ∈ st1.pending := (zMax_spec st1.pending p2 hz2).1
        have hp2st : p2 ∈ st.pending ∧ p2.1 ≠ p1.1 := by
          rw [← hst1] at hp2mem
          exact (mem_zrem st.pending p1.1 p2).1 hp2mem
        have hlook : lookupJob st1.jobs p2.1 = lookupJob st.jobs p2.1 := by
          rw [← hst1]
          have hkey : p2.1 ≠ jq1.id := by rw [hp1id]; exact hp2st.2
          exact lookup_set_ne st.jobs jq1.id p2.1 _ hkey
        obtain ⟨jm2, hjm2, hp2pr, hp2id⟩ :=
          (scoresMatchB_iff st).1 hw p2 hp2st.1
        cases hl2 : lookupJob st1.jobs p2.1 with
        | none =>
          rw [hlook, hjm2] at hl2
          simp at hl2
        | some jq2 =>
          rw [dequeue_pop st1 now2 p2 jq2 hz2 hl2] at h2
          simp only [Prod.mk.injEq, Except.ok.injEq, Option.some.injEq] at h2
          obtain ⟨hj2, hst2⟩ := h2
          rw [hlook, hjm2] at hl2
          injection hl2 with hl2
          have hk := (zMax_spec st.pending p1 hz1).2 p2 hp2st.1
          have hcmp := keyLtB_false_ne p1 p2 hk hp2st.2
          have hq2pr : jq2.priority = p2.2 := hl2 ▸ hp2pr
          have hq2id : jq2.id = p2.1 := hl2 ▸ hp2id
          have hj1pr : j1.priority = p1.2 := by rw [← hj1]; exact hp1pr
          have hj1id : j1.id = p1.1 := by rw [← hj1]; exact hp1id
          have hj2pr : j2.priority = p2.2 := by rw [← hj2]; exact hq2pr
          have hj2id : j2.id = p2.1 := by rw [← hj2]; exact hq2id
          rw [hj1pr, hj1id, hj2pr, hj2id]
          exact hcmp

/-- Witness for C2 on the two-job state: priority 5 dequeues before 3. -/
theorem claim2_witness :
    ({ jobC with createdAt := 1, status := JobStatus.processing,
                 startedAt := some 3 } : Job).priority <
      ({ jobA with status := JobStatus.processing, startedAt := some 2 } : Job).priority ∨
    (({ jobC with createdAt := 1, status := JobStatus.processing,
                  startedAt := some 3 } : Job).priority =
       ({ jobA with status := JobStatus.processing, startedAt := some 2 } : Job).priority ∧
     strLt ({ jobC with createdAt := 1, status := JobStatus.processing,
                        startedAt := some 3 } : Job).id
           ({ jobA with status := JobStatus.processing, startedAt := some 2 } : Job).id = true) :=
  claim2_amended cexStAC 2 3
    { jobA with status := JobStatus.processing, startedAt := some 2 }
    { jobC with createdAt := 1, status := JobStatus.processing, startedAt := some 3 }
    (dequeue cexStAC 2).2 (dequeue (dequeue cexStAC 2).2 3).2
    (by decide) rfl rfl

/--
Claim C3 counterexample: Acknowledge deletes the retrievable record
(pipeline of DEL on the record key and ZREM on the pending set); after
Acknowledge("a") on a stored job, GetJob("a") returns not-found instead
of still returning the job.
-/
theorem claim3_counterexample :
    getJob cexSt1 "a" = some jobA ∧
    getJob (acknowledge cexSt1 "a").2 "a" = none := by
  refine ⟨by decide, by decide⟩

/--
Claim C3 amended: Acknowledge deletes both the job record and the pending
entry: afterwards GetJob returns not-found; Acknowledge never errors and
is idempotent — a second call returns no error and leaves the state
unchanged.
-/
theorem claim3_amended (st : RedisState) (id : String) :
    (acknowledge st id).1 = Except.ok () ∧
    getJob (acknowledge st id).2 id = none ∧
    acknowledge (acknowledge st id).2 id = acknowledge st id := by
  refine ⟨rfl, lookup_del_self st.jobs id, ?_⟩
  simp only [acknowledge, Prod.mk.injEq, RedisState.mk.injEq]
  exact ⟨trivial, zrem_idem st.pending id, delJob_idem st.jobs id⟩

/--
Claim C4 counterexample: CancelJob("a") on the queued job marks it
Cancelled but leaves the pending entry, so the next Dequeue still returns
job "a" (as Processing); and CancelJob on the already-terminal job
overwrites the stored record (completed_at moves from 1 to 3).
-/
theorem claim4_counterexample :
    statusOf cexSt2 "a" = some JobStatus.cancelled ∧
    dequeuedId cexSt2 2 = some "a" ∧
    statusOf (dequeue cexSt2 2).2 "a" = some JobStatus.processing ∧
    (getJob cexSt2 "a").map Job.completedAt = some (some 1) ∧
    (getJob (cancelJob cexSt2 "a" 3).2 "a").map Job.completedAt = some (some 3) := by
  refine ⟨by decide, by decide, by decide, by decide, by decide⟩

/--
Claim C4 amended: CancelJob on any stored job (terminal ones included)
returns success, sets status Cancelled and completed_at = now in the
record, and leaves the pending structure untouched — it does not remove
the entry, so a still-pending cancelled job remains dequeueable.
-/
theorem claim4_amended (st : RedisState) (id : String) (j : Job) (now : Nat)
    (h : getJob st id = some j) (hid : j.id = id) :
    (cancelJob st id now).1 = Except.ok () ∧
    (cancelJob st id now).2.pending = st.pending ∧
    getJob (cancelJob st id now).2 id =
      some { j with status := JobStatus.cancelled, completedAt := some now } := by
  have hl : lookupJob st.jobs id = some j := h
  refine ⟨?_, ?_, ?_⟩
  · simp [cancelJob, getJob, hl]
  · simp [cancelJob, getJob, hl, updateJob]
  · simp only [cancelJob, getJob, hl, updateJob]
    rw [hid]
    exact lookup_set_self st.jobs id _

/-- Witness for C4 on the freshly enqueued job "a". -/
theorem claim4_witness :
    (cancelJob cexSt1 "a" 1).1 = Except.ok () ∧
    (cancelJob cexSt1 "a" 1).2.pending = cexSt1.pending ∧
    getJob (cancelJob cexSt1 "a" 1).2 "a" =
      some { jobA with status := JobStatus.cancelled, completedAt := some 1 } :=
  claim4_amended cexSt1 "a" jobA 1 (by decide) (by decide)

/--
Claim C7: Dequeue on an empty pending set returns empty (no job) and no
error, leaving the state unchanged; otherwise it removes a
maximum-priority pending entry (no pending entry has a higher score) and
returns the corresponding record with status Processing and
started_at = now.
-/
theorem claim7 (st : RedisState) (now : Nat) :
    (st.pending = [] → dequeue st now = (Except.ok none, st)) ∧
    (∀ p jq, zMax st.pending = some p → lookupJob st.jobs p.1 = some jq →
      (dequeue st now).1 =
        Except.ok (some { jq with status := JobStatus.processing, startedAt := some now }) ∧
      (dequeue st now).2.pending = zrem st.pending p.1 ∧
      (∀ q ∈ st.pending, q.2 ≤ p.2)) := by
  constructor
  · intro h
    simp [dequeue, h, zMax]
  · intro p jq hz hl
    rw [dequeue_pop st now p jq hz hl]
    refine ⟨rfl, rfl, ?_⟩
    intro q hq
    have hk := (zMax_spec st.pending p hz).2 q hq
    simp only [keyLtB] at hk
    by_cases h1 : p.2 < q.2
    · simp [h1] at hk
    · omega

/-- Witness for C7: the empty store, and the one-job store. -/
theorem claim7_witness :
    dequeue initState 7 = (Except.ok none, initState) ∧
    ((dequeue cexSt1 2).1 =
        Except.ok (some { jobA with status := JobStatus.processing, startedAt := some 2 }) ∧
      (dequeue cexSt1 2).2.pending = zrem cexSt1.pending "a" ∧
      (∀ q ∈ cexSt1.pending, q.2 ≤ 5)) :=
  ⟨(claim7 initState 7).1 rfl,
   (claim7 cexSt1 2).2 ("a", 5) jobA (by decide) (by decide)⟩

/--
Claim C10: when the initial `UpdateJob` that persists the `Processing`
transition fails, `ProcessJob` returns at once: the executor is never
invoked, no terminal status is written (the only store write is the
`Processing` update attempt), the job is not re-enqueued, and the worker
is still handed back to the idle pool.
-/
theorem claim10 (j : Job) (now : Nat) (execRes : Option (String × String))
    (termOk : Bool) (nowT : Nat) :
    runWorker j now false execRes termOk nowT =
      [WorkerEvent.update { j with status := JobStatus.processing,
                                   startedAt := some now, progress := 0 },
       WorkerEvent.giveBack] ∧
    (∀ j2, WorkerEvent.execRun j2 ∉ runWorker j now false execRes termOk nowT) ∧
    (∀ j2, WorkerEvent.update j2 ∈ runWorker j now false execRes termOk nowT →
      j2.status = JobStatus.processing) ∧
    (∀ i2, WorkerEvent.ackJob i2 ∉ runWorker j now false execRes termOk nowT) ∧
    (∀ j2, WorkerEvent.requeue j2 ∉ runWorker j now false execRes termOk nowT) ∧
    WorkerEvent.giveBack ∈ runWorker j now false execRes termOk nowT := by
  have hr : runWorker j now false execRes termOk nowT =
      [WorkerEvent.update { j with status := JobStatus.processing,
                                   startedAt := some now, progress := 0 },
       WorkerEvent.giveBack] := rfl
  refine ⟨hr, ?_, ?_, ?_, ?_, ?_⟩
  · intro j2
    rw [hr]
    simp
  · intro j2 hmem
    rw [hr] at hmem
    simp at hmem
    rw [hmem]
  · intro i2
    rw [hr]
    simp
  · intro j2
    rw [hr]
    simp
  · rw [hr]
    simp

/--
Claim C5 counterexample: the operation sequence Enqueue("a"),
CancelJob("a"), Dequeue makes job "a"'s observed status go Queued,
Cancelled, Processing — a regression out of a terminal state caused by
the Dequeue step (CancelJob left the pending entry), not by any
re-admission Enqueue.
-/
theorem claim5_counterexample :
    statusOf cexSt1 "a" = some JobStatus.queued ∧
    statusOf (applyOp cexSt1 (SysOp.cancelOp "a" 1)) "a" = some JobStatus.cancelled ∧
    statusOf (applyOp (applyOp cexSt1 (SysOp.cancelOp "a" 1)) (SysOp.deq 2)) "a" =
      some JobStatus.processing ∧
    rank JobStatus.processing < rank JobStatus.cancelled := by
  refine ⟨by decide, by decide, by decide, by decide⟩

/-- No operation of the cancellation-free lifecycle lowers the status
rank of a record that exists before and after the step. -/
theorem stepRankMono (st : RedisState) (op : SysOp) (id : String) (a b : JobStatus)
    (hInv : invB st = true) (hOk : okStepB st op = true)
    (hA : statusOf st id = some a) (hB : statusOf (applyOp st op) id = some b) :
    rank a ≤ rank b := by
  cases op with
  | enq job now fid =>
    simp only [okStepB, Option.isNone_iff_eq_none] at hOk
    by_cases hid : id = (if job.id = "" then fid else job.id)
    · rw [← hid] at hOk
      rw [statusOf, hOk] at hA
      simp at hA
    · simp only [applyOp, enqueue, statusOf] at hB
      rw [lookup_set_ne st.jobs _ id _ hid] at hB
      rw [statusOf] at hA
      rw [hA] at hB
      injection hB with hb
      rw [hb]
  | deq now =>
    cases hz : zMax st.pending with
    | none =>
      have hdq : dequeue st now = (Except.ok none, st) := by simp [dequeue, hz]
      simp only [applyOp, hdq] at hB
      rw [hA] at hB
      injection hB with hb
      rw [hb]
    | some p =>
      obtain ⟨jq, hl, hqs, hqid⟩ := (invB_iff st).1 hInv p (zMax_spec st.pending p hz).1
      have hdq := dequeue_pop st now p jq hz hl
      simp only [applyOp, hdq, statusOf] at hB
      by_cases hid : id = p.1
      · subst hid
        rw [statusOf, hl] at hA
        simp at hA
        rw [hqid, lookup_set_self] at hB
        simp at hB
        rw [← hA, hqs, ← hB]
        exact Nat.zero_le _
      · rw [lookup_set_ne st.jobs jq.id id _ (by rw [hqid]; exact hid)] at hB
        rw [statusOf] at hA
        rw [hA] at hB
        injection hB with hb
        rw [hb]
  | ackOp k =>
    by_cases hid : id = k
    · subst hid
      simp only [applyOp, acknowledge, statusOf] at hB
      rw [lookup_del_self] at hB
      simp at hB
    · simp only [applyOp, acknowledge, statusOf] at hB
      rw [lookup_del_ne st.jobs k id hid] at hB
      rw [statusOf] at hA
      rw [hA] at hB
      injection hB with hb
      rw [hb]
  | cancelOp k now =>
    simp [okStepB] at hOk
  | workerOp ok now nowP nowT =>
    cases hz : zMax st.pending with
    | none =>
      have hdq : dequeue st now = (Except.ok none, st) := by simp [dequeue, hz]
      simp only [applyOp, workerRun, hdq] at hB
      rw [hA] at hB
      injection hB with hb
      rw [hb]
    | some p =>
      obtain ⟨jq, hl, hqs, hqid⟩ := (invB_iff st).1 hInv p (zMax_spec st.pending p hz).1
      have hdq := dequeue_pop st now p jq hz hl
      simp only [applyOp, workerRun, hdq] at hB
      cases ok with
      | true =>
        rw [if_pos rfl] at hB
        by_cases hid : id = p.1
        · subst hid
          simp only [acknowledge, updateJob, statusOf] at hB
          rw [hqid] at hB
          rw [lookup_del_self] at hB
          simp at hB
        · simp only [acknowledge, updateJob, statusOf] at hB
          rw [hqid] at hB
          rw [lookup_del_ne _ p.1 id hid] at hB
          rw [lookup_set_ne _ p.1 id _ hid] at hB
          rw [lookup_set_ne _ p.1 id _ hid] at hB
          rw [lookup_set_ne _ p.1 id _ hid] at hB
          rw [statusOf] at hA
          rw [hA] at hB
          injection hB with hb
          rw [hb]
      | false =>
        rw [if_neg Bool.false_ne_true] at hB
        by_cases hid : id = p.1
        · subst hid
          rw [statusOf, hl] at hA
          simp at hA
          simp only [updateJob, statusOf] at hB
          rw [hqid] at hB
          rw [lookup_set_self] at hB
          simp at hB
          rw [← hA, hqs, ← hB]
          exact Nat.zero_le _
        · simp only [updateJob, statusOf] at hB
          rw [hqid] at hB
          rw [lookup_set_ne _ p.1 id _ hid] at hB
          rw [lookup_set_ne _ p.1 id _ hid] at hB
          rw [lookup_set_ne _ p.1 id _ hid] at hB
          rw [statusOf] at hA
          rw [hA] at hB
          injection hB with hb
          rw [hb]

/-- Every operation of the cancellation-free lifecycle preserves the
store well-formedness invariant. -/
theorem stepInvPres (st : RedisState) (op : SysOp)
    (hInv : invB st = true) (hOk : okStepB st op = true) :
    invB (applyOp st op) = true := by
  cases op with
  | enq job now fid =>
    simp only [okStepB, Option.isNone_iff_eq_none] at hOk
    rw [invB_iff]
    intro p hp
    simp only [applyOp, enqueue] at hp ⊢
    rcases mem_zadd _ _ _ p hp with hP | hP
    · rw [hP]
      exact ⟨_, lookup_set_self st.jobs _ _, rfl, rfl⟩
    · obtain ⟨jm, hjm, hs, hi⟩ := (invB_iff st).1 hInv p hP
      have hne : p.1 ≠ (if job.id = "" then fid else job.id) := by
        intro he
        rw [he, hOk] at hjm
        exact Option.noConfusion hjm
      rw [lookup_set_ne st.jobs _ p.1 _ hne]
      exact ⟨jm, hjm, hs, hi⟩
  | deq now =>
    cases hz : zMax st.pending with
    | none =>
      have hdq : dequeue st now = (Except.ok none, st) := by simp [dequeue, hz]
      simpa only [applyOp, hdq] using hInv
    | some p =>
      obtain ⟨jq, hl, hqs, hqid⟩ := (invB_iff st).1 hInv p (zMax_spec st.pending p hz).1
      have hdq := dequeue_pop st now p jq hz hl
      rw [invB_iff]
      intro q hq
      simp only [applyOp, hdq] at hq ⊢
      have hqmem := (mem_zrem st.pending p.1 q).1 hq
      obtain ⟨jm, hjm, hs, hi⟩ := (invB_iff st).1 hInv q hqmem.1
      rw [hqid]
      rw [lookup_set_ne st.jobs p.1 q.1 _ hqmem.2]
      exact ⟨jm, hjm, hs, hi⟩
  | ackOp k =>
    rw [invB_iff]
    intro q hq
    simp only [applyOp, acknowledge] at hq ⊢
    have hqmem := (mem_zrem st.pending k q).1 hq
    obtain ⟨jm, hjm, hs, hi⟩ := (invB_iff st).1 hInv q hqmem.1
    rw [lookup_del_ne st.jobs k q.1 hqmem.2]
    exact ⟨jm, hjm, hs, hi⟩
  | cancelOp k now =>
    simp [okStepB] at hOk
  | workerOp ok now nowP nowT =>
    cases hz : zMax st.pending with
    | none =>
      have hdq : dequeue st now = (Except.ok none, st) := by simp [dequeue, hz]
      simpa only [applyOp, workerRun, hdq] using hInv
    | some p =>
      obtain ⟨jq, hl, hqs, hqid⟩ := (invB_iff st).1 hInv p (zMax_spec st.pending p hz).1
      have hdq := dequeue_pop st now p jq hz hl
      rw [invB_iff]
      intro q hq
      simp only [applyOp, workerRun, hdq] at hq ⊢
      cases ok with
      | true =>
        rw [if_pos rfl] at hq ⊢
        simp only [acknowledge, updateJob] at hq ⊢
        rw [hqid] at hq ⊢
        have hq1 := (mem_zrem _ _ q).1 hq
        have hqmem := (mem_zrem st.pending p.1 q).1 hq1.1
        obtain ⟨jm, hjm, hs, hi⟩ := (invB_iff st).1 hInv q hqmem.1
        rw [lookup_del_ne _ p.1 q.1 hqmem.2]
        rw [lookup_set_ne _ p.1 q.1 _ hqmem.2]
        rw [lookup_set_ne _ p.1 q.1 _ hqmem.2]
        rw [lookup_set_ne _ p.1 q.1 _ hqmem.2]
        exact ⟨jm, hjm, hs, hi⟩
      | false =>
        rw [if_neg Bool.false_ne_true] at hq ⊢
        simp only [updateJob] at hq ⊢
        rw [hqid]
        have hqmem := (mem_zrem st.pending p.1 q).1 hq
        obtain ⟨jm, hjm, hs, hi⟩ := (invB_iff st).1 hInv q hqmem.1
        rw [lookup_set_ne _ p.1 q.1 _ hqmem.2]
        rw [lookup_set_ne _ p.1 q.1 _ hqmem.2]
        rw [lookup_set_ne _ p.1 q.1 _ hqmem.2]
        exact ⟨jm, hjm, hs, hi⟩

/--
Claim C5 amended: in the cancellation-free lifecycle — Enqueue of ids not
currently stored (fresh admission), Dequeue, worker processing and
Acknowledge — no operation ever lowers a stored job's status rank
(Queued < Processing < terminal), and every such operation preserves
store well-formedness; the original claim fails because CancelJob leaves
the pending entry in place, so a cancelled job is dequeued back to
Processing (a regression that is not a re-admission Enqueue).
-/
theorem claim5_amended :
    (∀ (st : RedisState) (op : SysOp) (id : String) (a b : JobStatus),
      invB st = true → okStepB st op = true →
      statusOf st id = some a → statusOf (applyOp st op) id = some b →
      rank a ≤ rank b) ∧
    (∀ (st : RedisState) (op : SysOp),
      invB st = true → okStepB st op = true → invB (applyOp st op) = true) :=
  ⟨stepRankMono, stepInvPres⟩

/-- Witness for C5 on the one-job store and a Dequeue step. -/
theorem claim5_witness :
    rank JobStatus.queued ≤ rank JobStatus.processing ∧
    invB (applyOp cexSt1 (SysOp.deq 1)) = true :=
  ⟨claim5_amended.1 cexSt1 (SysOp.deq 1) "a" JobStatus.queued JobStatus.processing
      (by decide) (by decide) (by decide) (by decide),
   claim5_amended.2 cexSt1 (SysOp.deq 1) (by decide) (by decide)⟩

/-- Witness for C10 at a concrete job and tick. -/
theorem claim10_witness :
    runWorker jobA 4 false none true 9 =
      [WorkerEvent.update { jobA with status := JobStatus.processing,
                                      startedAt := some 4, progress := 0 },
       WorkerEvent.giveBack] ∧
    ({ jobA with status := JobStatus.processing, startedAt := some 4,
                 progress := 0 } : Job).status = JobStatus.processing :=
  ⟨(claim10 jobA 4 none true 9).1,
   (claim10 jobA 4 none true 9).2.2.1 _ (by decide)⟩

end Flixsrota
